import Mathlib

/-!
Verification of the incremental hourly-aggregation example.

The program maps each trade to a group key (hour bucket, market) and
maintains, per key, the maximum price among the values currently present
in the input collection; it emits only changes to that per-key aggregate.
We embed the data model and the per-key denotation of the dataflow:
an input state is a list of signed diffs (trade, multiplicity), and the
reduce step sees, for each key, exactly the prices whose accumulated
multiplicity is nonzero, folding `max` over them starting from the
minimum representable decimal.
-/

/-- A trade record: `struct Trade { timestamp: i64, market: u32, price: Decimal }`.
Exact decimals are modelled as rationals. -/
structure Trade where
  timestamp : ℤ
  market : ℕ
  price : ℚ
deriving DecidableEq, Repr

/-- The emitted hourly aggregate:
`struct FHLLVData { timestamp: i64, market: u32, high: Decimal }`. -/
structure FHLLVData where
  timestamp : ℤ
  market : ℕ
  high : ℚ
deriving DecidableEq, Repr

/-- `fn round_down_to_hour(ts: i64) -> i64 { (ts / 3600) * 3600 }`.
Rust `/` on `i64` truncates toward zero, which is `Int.tdiv`. -/
def round_down_to_hour (ts : ℤ) : ℤ :=
  ts.tdiv 3600 * 3600

/-- `Decimal::MIN` of the `rust_decimal` crate: `-(2^96 - 1)` at scale 0. -/
def Decimal_MIN : ℚ :=
  -79228162514264337593543950335

/-- A signed input diff: a trade together with its `isize` multiplicity. -/
abbrev Diff := Trade × ℤ

/-- The group key computed by the `map` stage of `compute_hourly_data`:
`(round_down_to_hour(trade.timestamp), trade.market)`. -/
def keyOf (t : Trade) : ℤ × ℕ :=
  (round_down_to_hour t.timestamp, t.market)

/-- Accumulated net multiplicity of price `p` within the group `k`:
the sum of the multiplicities of all diffs whose trade maps to key `k`
and carries price `p`. -/
def priceMult (ds : List Diff) (k : ℤ × ℕ) (p : ℚ) : ℤ :=
  ((ds.filter fun d => keyOf d.1 = k ∧ d.1.price = p).map Prod.snd).sum

/-- The distinct prices of group `k` whose accumulated multiplicity is
nonzero: exactly the values the differential-dataflow `reduce` operator
presents to the reduction closure for key `k`. -/
def groupPrices (ds : List Diff) (k : ℤ × ℕ) : Finset ℚ :=
  (((ds.filter fun d => keyOf d.1 = k).map fun d => d.1.price).toFinset).filter
    fun p => priceMult ds k p ≠ 0

/-- The fold of the reduce body: `high_price = Decimal::MIN` followed by
`high_price = high_price.max(**price)` over the presented prices. -/
def foldHigh (s : Finset ℚ) : ℚ :=
  s.fold max Decimal_MIN id

/-- Per-key denotation of `compute_hourly_data`: the aggregate record the
dataflow holds for key `k` given accumulated input `ds`. The reduce body
runs only on keys with a nonempty presented input, and then pushes exactly
one `FHLLVData` with multiplicity 1. -/
def compute_hourly_data (ds : List Diff) (k : ℤ × ℕ) : Option FHLLVData :=
  if groupPrices ds k = ∅ then none
  else some ⟨k.1, k.2, foldHigh (groupPrices ds k)⟩

/-- The diff stream emitted for one key when its held aggregate changes
from `o₁` to `o₂`: nothing if unchanged, otherwise a retraction (−1) of
the old record and an insertion (+1) of the new one. -/
def emittedChange (o₁ o₂ : Option FHLLVData) : List (FHLLVData × ℤ) :=
  if o₁ = o₂ then []
  else (o₁.toList.map fun r => (r, -1)) ++ (o₂.toList.map fun r => (r, 1))

/-- The spec's reading of the group contents: only prices with strictly
positive net multiplicity (`GroupState` invariant 1 of the spec). Named
apart from `groupPrices`, the set the code actually reduces over. -/
def groupPricesPosSpec (ds : List Diff) (k : ℤ × ℕ) : Finset ℚ :=
  (((ds.filter fun d => keyOf d.1 = k).map fun d => d.1.price).toFinset).filter
    fun p => 0 < priceMult ds k p

/-- Modelled from the spec: the input session state. `InputSession` and its
`advance_to` live in the differential-dataflow dependency, not in this
repository; only their call sites (`generate_synthetic_trades`) are in
`src`. The state is the last committed logical time together with the
staged, not-yet-flushed diffs. -/
structure SessionState where
  lastCommitted : ℤ
  staged : List Diff
deriving DecidableEq, Repr

/-- Modelled from the spec: the ordering failure of `advance_to`
(logical-time regression). -/
inductive OrderingError where
  | regression
deriving DecidableEq, Repr

/-- Modelled from the spec: `advance_to(t)` fails with an ordering error if
`t` is not strictly greater than the last committed time, leaving the prior
state untouched with nothing flushed; otherwise it succeeds and commits the
clock at `t`. -/
def advance_to (s : SessionState) (t : ℤ) : Except OrderingError SessionState :=
  if s.lastCommitted < t then .ok { s with lastCommitted := t }
  else .error .regression

lemma filter_key_price (ds : List Diff) (k : ℤ × ℕ) (p : ℚ) :
    (ds.filter fun d => keyOf d.1 = k ∧ d.1.price = p)
      = (ds.filter fun d => keyOf d.1 = k).filter fun d => d.1.price = p := by
  rw [List.filter_filter]
  congr 1
  funext d
  by_cases h1 : keyOf d.1 = k <;> by_cases h2 : d.1.price = p <;> simp [h1, h2]

lemma priceMult_ne_zero_mem {ds : List Diff} {k : ℤ × ℕ} {p : ℚ}
    (h : priceMult ds k p ≠ 0) :
    p ∈ ((ds.filter fun d => keyOf d.1 = k).map fun d => d.1.price).toFinset := by
  by_contra hmem
  apply h
  unfold priceMult
  rw [filter_key_price]
  have hnil : ((ds.filter fun d => keyOf d.1 = k).filter fun d => d.1.price = p) = [] := by
    rw [List.filter_eq_nil_iff]
    intro d hd
    simp only [decide_eq_true_eq]
    intro hp
    exact hmem (List.mem_toFinset.mpr (List.mem_map.mpr ⟨d, hd, hp⟩))
  rw [hnil]
  rfl

/-- Membership in the set the reduce closure sees is exactly "nonzero
accumulated multiplicity". -/
lemma mem_groupPrices {ds : List Diff} {k : ℤ × ℕ} {p : ℚ} :
    p ∈ groupPrices ds k ↔ priceMult ds k p ≠ 0 := by
  constructor
  · intro hp
    exact (Finset.mem_filter.mp hp).2
  · intro hp
    exact Finset.mem_filter.mpr ⟨priceMult_ne_zero_mem hp, hp⟩

lemma groupPrices_congr {ds₁ ds₂ : List Diff} {k : ℤ × ℕ}
    (h : ∀ p, priceMult ds₁ k p = priceMult ds₂ k p) :
    groupPrices ds₁ k = groupPrices ds₂ k := by
  ext p
  rw [mem_groupPrices, mem_groupPrices, h]

lemma compute_hourly_data_congr {ds₁ ds₂ : List Diff} {k : ℤ × ℕ}
    (h : groupPrices ds₁ k = groupPrices ds₂ k) :
    compute_hourly_data ds₁ k = compute_hourly_data ds₂ k := by
  unfold compute_hourly_data
  rw [h]

lemma priceMult_append (ds₁ ds₂ : List Diff) (k : ℤ × ℕ) (p : ℚ) :
    priceMult (ds₁ ++ ds₂) k p = priceMult ds₁ k p + priceMult ds₂ k p := by
  unfold priceMult
  rw [List.filter_append, List.map_append, List.sum_append]

lemma priceMult_single (d : Diff) (k : ℤ × ℕ) (p : ℚ) :
    priceMult [d] k p = if keyOf d.1 = k ∧ d.1.price = p then d.2 else 0 := by
  unfold priceMult
  by_cases h : keyOf d.1 = k ∧ d.1.price = p <;> simp [h]

lemma emittedChange_self (o : Option FHLLVData) : emittedChange o o = [] := by
  unfold emittedChange
  rw [if_pos rfl]

/-- When every presented price is at least `Decimal::MIN` (always true of
representable decimals), the reduce fold computes the set maximum. -/
lemma foldHigh_eq_max' {s : Finset ℚ} (hne : s.Nonempty)
    (hge : ∀ p ∈ s, Decimal_MIN ≤ p) :
    foldHigh s = s.max' hne := by
  apply le_antisymm
  · rw [foldHigh, Finset.fold_max_le]
    exact ⟨hge _ (s.max'_mem hne), fun x hx => Finset.le_max' s x hx⟩
  · rw [foldHigh, Finset.le_fold_max]
    exact Or.inr ⟨s.max' hne, s.max'_mem hne, le_refl _⟩

/-- C1 (amended): `round_down_to_hour` computes truncation toward zero,
`ts - tmod ts 3600`; for every nonnegative `ts` this coincides with the
mathematical-floor form `ts - (ts mod 3600)`, but not for negative `ts`
that are not multiples of 3600. -/
theorem C1_round_down_to_hour_truncates (ts : ℤ) :
    round_down_to_hour ts = ts - Int.tmod ts 3600 ∧
    (0 ≤ ts → round_down_to_hour ts = ts - ts % 3600) := by
  constructor
  · rw [round_down_to_hour, Int.tmod_def]
    ring
  · intro h
    rw [round_down_to_hour, Int.tdiv_eq_ediv h (by norm_num)]
    omega

/-- C1 fails as stated: at `ts = -1` the code returns `0`, not the largest
multiple of 3600 below `-1` (which is `-3600 = -1 - (-1 mod 3600)` with
mathematical flooring). -/
theorem C1_counterexample :
    round_down_to_hour (-1) ≠ (-1 : ℤ) - (-1 : ℤ) % 3600 := by decide

/-- C1 witness at the concrete nonnegative timestamp 3601. -/
theorem C1_witness :
    round_down_to_hour 3601 = 3601 - Int.tmod 3601 3600 ∧
    round_down_to_hour 3601 = 3601 - (3601 : ℤ) % 3600 :=
  ⟨(C1_round_down_to_hour_truncates 3601).1,
   (C1_round_down_to_hour_truncates 3601).2 (by decide)⟩

/-- C2 (amended): the set the reduce closure sees for a key is exactly the
prices of NONZERO (not strictly positive) accumulated multiplicity; the
group emits no record exactly when that set is empty, and when it is
nonempty (and its prices lie in the representable decimal range, that is,
at least `Decimal::MIN`) the emitted `high` is the maximum of that set. -/
theorem C2_high_is_max_of_nonzero (ds : List Diff) (k : ℤ × ℕ) :
    (∀ p, p ∈ groupPrices ds k ↔ priceMult ds k p ≠ 0) ∧
    (compute_hourly_data ds k = none ↔ groupPrices ds k = ∅) ∧
    (∀ hne : (groupPrices ds k).Nonempty,
      (∀ p ∈ groupPrices ds k, Decimal_MIN ≤ p) →
        compute_hourly_data ds k = some ⟨k.1, k.2, (groupPrices ds k).max' hne⟩) := by
  refine ⟨fun p => mem_groupPrices, ?_, ?_⟩
  · unfold compute_hourly_data
    by_cases h : groupPrices ds k = ∅ <;> simp [h]
  · intro hne hge
    unfold compute_hourly_data
    rw [if_neg (Finset.nonempty_iff_ne_empty.mp hne), foldHigh_eq_max' hne hge]

/-- C2 fails as stated: a group holding only a retraction (net multiplicity
−1) of price 10 has no strictly-positive-multiplicity price, yet the code
still emits an aggregate record with `high = 10`, because the reduce body
ignores the signs of the presented multiplicities. -/
theorem C2_counterexample :
    groupPricesPosSpec [(⟨1717200000, 5, 10⟩, -1)] (1717200000, 5) = ∅ ∧
    compute_hourly_data [(⟨1717200000, 5, 10⟩, -1)] (1717200000, 5)
      = some ⟨1717200000, 5, 10⟩ := by decide

/-- C2 witness: a singleton insertion emits its own price as the maximum. -/
theorem C2_witness :
    compute_hourly_data [(⟨1717200000, 5, 10⟩, 1)] (1717200000, 5)
      = some ⟨1717200000, 5,
          (groupPrices [(⟨1717200000, 5, 10⟩, 1)] (1717200000, 5)).max' (by decide)⟩ :=
  (C2_high_is_max_of_nonzero _ _).2.2 (by decide) (by decide)

/-- C3: Scenario A. Inserting (ts=1717200000, market=5, price=10) and
(ts=1717200500, market=5, price=15) emits exactly
`{bucket 1717200000, market 5, high 15}` with multiplicity +1 (and nothing
for any other key); then retracting the 15 record emits a retraction (−1)
of the high-15 aggregate and an insertion (+1) of a high-10 aggregate for
the same key. -/
theorem C3_scenario_A :
    (emittedChange (compute_hourly_data [] (1717200000, 5))
        (compute_hourly_data [(⟨1717200000, 5, 10⟩, 1), (⟨1717200500, 5, 15⟩, 1)]
          (1717200000, 5))
      = [(⟨1717200000, 5, 15⟩, 1)]) ∧
    (∀ k : ℤ × ℕ, k ≠ (1717200000, 5) →
      compute_hourly_data [(⟨1717200000, 5, 10⟩, 1), (⟨1717200500, 5, 15⟩, 1)] k = none) ∧
    (emittedChange
        (compute_hourly_data [(⟨1717200000, 5, 10⟩, 1), (⟨1717200500, 5, 15⟩, 1)]
          (1717200000, 5))
        (compute_hourly_data
          [(⟨1717200000, 5, 10⟩, 1), (⟨1717200500, 5, 15⟩, 1), (⟨1717200500, 5, 15⟩, -1)]
          (1717200000, 5))
      = [(⟨1717200000, 5, 15⟩, -1), (⟨1717200000, 5, 10⟩, 1)]) := by
  refine ⟨by decide, ?_, by decide⟩
  intro k hk
  unfold compute_hourly_data
  rw [if_pos]
  apply Finset.eq_empty_iff_forall_not_mem.mpr
  intro p hp
  rw [mem_groupPrices] at hp
  apply hp
  unfold priceMult
  have e1 : keyOf ⟨1717200000, 5, 10⟩ = (1717200000, 5) := by decide
  have e2 : keyOf ⟨1717200500, 5, 15⟩ = (1717200000, 5) := by decide
  simp [List.filter, e1, e2, Ne.symm hk]

/-- C3 witness: the off-key clause evaluated at the concrete key (0, 0). -/
theorem C3_witness :
    compute_hourly_data [(⟨1717200000, 5, 10⟩, 1), (⟨1717200500, 5, 15⟩, 1)] (0, 0) = none :=
  C3_scenario_A.2.1 (0, 0) (by decide)

/-- C4: retraction inverse law. Applying a diff `d` and then its exact
negation leaves every key's held aggregate (including "no record") equal to
what it was before, and the resulting emitted change is empty. -/
theorem C4_retraction_inverse (ds : List Diff) (d : Diff) (k : ℤ × ℕ) :
    compute_hourly_data (ds ++ [d, (d.1, -d.2)]) k = compute_hourly_data ds k ∧
    emittedChange (compute_hourly_data ds k)
        (compute_hourly_data (ds ++ [d, (d.1, -d.2)]) k) = [] := by
  have hm : ∀ p, priceMult (ds ++ [d, (d.1, -d.2)]) k p = priceMult ds k p := by
    intro p
    rw [priceMult_append]
    have hz : priceMult [d, (d.1, -d.2)] k p = 0 := by
      have h2 : ([d, (d.1, -d.2)] : List Diff) = [d] ++ [(d.1, -d.2)] := rfl
      rw [h2, priceMult_append]
      simp only [priceMult_single]
      by_cases h : keyOf d.1 = k ∧ d.1.price = p <;> simp [h]
    rw [hz, add_zero]
  have hc := compute_hourly_data_congr (groupPrices_congr hm)
  exact ⟨hc, by rw [hc, emittedChange_self]⟩

/-- C5: tie stability. If the group of key `k` holds the maximal price of
trade `t` with net multiplicity at least 2, retracting one instance of `t`
leaves the key's aggregate unchanged and emits no change. -/
theorem C5_tie_stability (ds : List Diff) (t : Trade) (k : ℤ × ℕ)
    (hk : keyOf t = k) (h2 : 2 ≤ priceMult ds k t.price)
    (hmax : ∀ q ∈ groupPrices ds k, q ≤ t.price) :
    compute_hourly_data (ds ++ [(t, -1)]) k = compute_hourly_data ds k ∧
    emittedChange (compute_hourly_data ds k)
        (compute_hourly_data (ds ++ [(t, -1)]) k) = [] := by
  have hg : groupPrices (ds ++ [(t, -1)]) k = groupPrices ds k := by
    ext p
    rw [mem_groupPrices, mem_groupPrices, priceMult_append, priceMult_single]
    by_cases hp : p = t.price
    · subst hp
      rw [if_pos ⟨hk, rfl⟩]
      omega
    · rw [if_neg]
      · simp
      · rintro ⟨-, hpe⟩
        exact hp hpe.symm
  have hc := compute_hourly_data_congr hg
  exact ⟨hc, by rw [hc, emittedChange_self]⟩

/-- C5 witness: two copies of the price-10 trade, one retracted. -/
theorem C5_witness :
    compute_hourly_data
        ([(⟨1717200000, 5, 10⟩, 1), (⟨1717200000, 5, 10⟩, 1)] ++ [(⟨1717200000, 5, 10⟩, -1)])
        (1717200000, 5)
      = compute_hourly_data [(⟨1717200000, 5, 10⟩, 1), (⟨1717200000, 5, 10⟩, 1)]
          (1717200000, 5) ∧
    emittedChange
        (compute_hourly_data [(⟨1717200000, 5, 10⟩, 1), (⟨1717200000, 5, 10⟩, 1)]
          (1717200000, 5))
        (compute_hourly_data
          ([(⟨1717200000, 5, 10⟩, 1), (⟨1717200000, 5, 10⟩, 1)] ++ [(⟨1717200000, 5, 10⟩, -1)])
          (1717200000, 5)) = [] :=
  C5_tie_stability _ _ _ (by decide) (by decide) (by decide)

/-- C6: idempotence of replay. Inserting the same trade twice and then
retracting it once yields, for every key, the same held aggregate as a
single insertion of that trade. -/
theorem C6_idempotent_replay (ds : List Diff) (t : Trade) (k : ℤ × ℕ) :
    compute_hourly_data (ds ++ [(t, 1), (t, 1), (t, -1)]) k
      = compute_hourly_data (ds ++ [(t, 1)]) k := by
  apply compute_hourly_data_congr
  apply groupPrices_congr
  intro p
  rw [priceMult_append, priceMult_append]
  congr 1
  have h3 : ([(t, 1), (t, 1), (t, -1)] : List Diff) = [(t, 1)] ++ [(t, 1)] ++ [(t, -1)] := rfl
  rw [h3, priceMult_append, priceMult_append]
  simp only [priceMult_single]
  by_cases h : keyOf t = k ∧ t.price = p <;> simp [h]

/-- C7: `advance_to(t)` fails with an ordering error, leaving the state
untouched and flushing nothing, exactly when `t` is not strictly greater
than the last committed time; otherwise it succeeds. -/
theorem C7_advance_to_ordering (s : SessionState) (t : ℤ) :
    (¬ s.lastCommitted < t → advance_to s t = .error .regression) ∧
    (s.lastCommitted < t → advance_to s t = .ok { s with lastCommitted := t }) := by
  constructor
  · intro h
    unfold advance_to
    rw [if_neg h]
  · intro h
    unfold advance_to
    rw [if_pos h]

/-- C7 witness: advancing from time 0 to 0 errors; from 0 to 1 succeeds. -/
theorem C7_witness :
    advance_to ⟨0, []⟩ 0 = .error .regression ∧ advance_to ⟨0, []⟩ 1 = .ok ⟨1, []⟩ :=
  ⟨(C7_advance_to_ordering ⟨0, []⟩ 0).1 (by decide),
   (C7_advance_to_ordering ⟨0, []⟩ 1).2 (by decide)⟩

/-- C8: within-batch order independence. Committing any permutation of a
batch on top of a prior state yields the same held aggregate and the same
emitted change for every key. -/
theorem C8_batch_order_independence (base b₁ b₂ : List Diff)
    (hperm : b₁.Perm b₂) (k : ℤ × ℕ) :
    compute_hourly_data (base ++ b₁) k = compute_hourly_data (base ++ b₂) k ∧
    emittedChange (compute_hourly_data base k) (compute_hourly_data (base ++ b₁) k)
      = emittedChange (compute_hourly_data base k) (compute_hourly_data (base ++ b₂) k) := by
  have hmult : ∀ p, priceMult (base ++ b₁) k p = priceMult (base ++ b₂) k p := by
    intro p
    rw [priceMult_append, priceMult_append]
    congr 1
    exact List.Perm.sum_eq (List.Perm.map Prod.snd (List.Perm.filter _ hperm))
  have hc := compute_hourly_data_congr (groupPrices_congr hmult)
  exact ⟨hc, by rw [hc]⟩

/-- C8 witness: the two-element batch of Scenario A, swapped. -/
theorem C8_witness :
    compute_hourly_data ([] ++ [(⟨1717200000, 5, 10⟩, 1), (⟨1717200500, 5, 15⟩, 1)])
        (1717200000, 5)
      = compute_hourly_data ([] ++ [(⟨1717200500, 5, 15⟩, 1), (⟨1717200000, 5, 10⟩, 1)])
        (1717200000, 5) :=
  (C8_batch_order_independence [] _ _ (by decide) (1717200000, 5)).1
